import Mathlib

/-!
Verification development for the feature-based deep-learning notebook
(`2_deep_learning_for_features.ipynb`): a shallow embedding of its data
pipeline (`make_dataset`, the two `train_test_split` calls, the batch
dataloaders), the two-layer network `Net`, and the training/evaluation
loops (`train_model`, `print_test_accuracy`), together with theorems
settling the specification claims.

Conventions: machine floats are modelled as rationals; the standard
scaler's per-column divisor (a square root in the source) is an abstract
rational constrained by the hypotheses that need it; pseudo-random
shuffles are abstract permutations.
-/

namespace MLCourse

/-! ## Raw CSV rows and `make_dataset`

A row of `yeast_his3.csv`, restricted to the selected column set
`["Cgroup"] ++ ["C101", "C103", "C104", "C115", "A101", "A120", "A121",
"A122", "A123"]`.  A missing cell is `none` (pandas null). -/

structure Row where
  cgroup : Option String
  cols : Fin 9 → Option ℚ

/-- `np.sum(cell_features_pre.isnull(), axis=1) == 0`: the row has no
null among the ten selected cells. -/
def rowComplete (r : Row) : Prop :=
  r.cgroup.isSome = true ∧ ∀ j : Fin 9, (r.cols j).isSome = true

instance : DecidablePred rowComplete := fun r =>
  inferInstanceAs (Decidable (_ ∧ _))

/-- The `Cgroup` value of a complete row (`""` is never reached on
filtered rows). -/
def groupVal (r : Row) : String := r.cgroup.getD ""

/-- The numeric feature vector of a complete row (`0` never reached on
filtered rows). -/
def featVal (r : Row) (j : Fin 9) : ℚ := (r.cols j).getD 0

/-- The class-assignment block of `make_dataset`: `y = [0,0,0,0]`
followed by the `if group == "no": y = [1,0,0,0]` / `elif` chain. -/
def labelOf (group : String) : List ℕ :=
  let y := [0, 0, 0, 0]
  if group = "no" then [1, 0, 0, 0]
  else if group = "small" then [0, 1, 0, 0]
  else if group = "medium" then [0, 0, 1, 0]
  else if group = "large" then [0, 0, 0, 1]
  else y

/-! ## Standardization (`preprocessing.StandardScaler().fit_transform`)

The scaler centers each column by its mean over the whole filtered
table and divides by the per-column scale (the square root of the
population variance in the source; here an abstract rational `s j`,
constrained where a claim needs it). -/

/-- Mean of column `j` over the feature rows. -/
def colMean (xs : List (Fin 9 → ℚ)) (j : Fin 9) : ℚ :=
  (xs.map fun x => x j).sum / xs.length

/-- Population variance (`ddof = 0`) of column `j` over the feature
rows. -/
def colVar (xs : List (Fin 9 → ℚ)) (j : Fin 9) : ℚ :=
  (xs.map fun x => (x j - colMean xs j) ^ 2).sum / xs.length

/-- `StandardScaler` transform of a single row: center by the full-table
column means `μ` and divide by the column scales `s`. -/
def scalerTransform (μ s : Fin 9 → ℚ) (x : Fin 9 → ℚ) : Fin 9 → ℚ :=
  fun j => (x j - μ j) / s j

/-- `make_dataset`: select the fixed column set, drop rows with any
null, standardize the features over the whole filtered table, and map
each `Cgroup` string to its label vector.  Returns the `features` and
`labels` lists.  The column scales `s` parametrize the square root the
scaler takes. -/
def make_dataset (s : Fin 9 → ℚ) (rows : List Row) :
    List (Fin 9 → ℚ) × List (List ℕ) :=
  let cell_features := rows.filter fun r => decide (rowComplete r)
  let X := cell_features.map featVal
  let groups := cell_features.map groupVal
  let X_norm := X.map (scalerTransform (colMean X) s)
  (X_norm, groups.map labelOf)

/-! ## `train_test_split`

sklearn's `train_test_split(X, y, test_size=a/b)` draws
`n_test = ceil(test_size * n)` samples, shuffles the indices with a
fresh permutation, takes the first `n_test` shuffled positions as the
test set and the remaining positions as the train set, both in shuffled
order.  We model the shuffle as the already-permuted sample list and
split it; `test_size` is the exact rational `a / b`. -/

/-- `ceil(n * a / b)` — sklearn's test-set cardinality for
`test_size = a/b` on `n` samples. -/
def nTestSize (a b n : ℕ) : ℕ := (n * a + b - 1) / b

/-- One `train_test_split` call on the already-shuffled sample list:
returns `(train, test)`. -/
def train_test_split (a b : ℕ) (shuffled : List α) : List α × List α :=
  let t := nTestSize a b shuffled.length
  (shuffled.drop t, shuffled.take t)

/-- The notebook's two consecutive splits: `test_size = 0.20` carves the
test set out of the full list, then `test_size = 0.25` carves the
validation set out of the remainder.  `p` is the first shuffle of the
samples and `q` the second shuffle of the remainder (each constrained to
be a permutation where a claim needs it).  Returns
`(X_train, X_val, X_test)`. -/
def splitDataset (p q : List α) : List α × List α × List α :=
  let (_, x_test) := train_test_split 1 5 p
  let (x_train, x_val) := train_test_split 1 4 q
  (x_train, x_val, x_test)

/-! ## The dataloaders

`torch.utils.data.DataLoader(ds, batch_size=64, shuffle=…)` with the
default `drop_last=False` yields the dataset in consecutive chunks of
`batch_size` samples (the last chunk possibly smaller), over the stored
order (`shuffle=False`, validation and test) or over a fresh permutation
of it (`shuffle=True`, training). -/

/-- Recursion core of `toBatches`; `fuel` is a structural bound on the
number of batches (any `fuel ≥ xs.length` gives the true chunking). -/
def toBatchesGo (bs : ℕ) : ℕ → List α → List (List α)
  | 0, _ => []
  | fuel + 1, xs =>
    if bs = 0 ∨ xs.length = 0 then []
    else xs.take bs :: toBatchesGo bs fuel (xs.drop bs)

/-- Cut `xs` into consecutive batches of `bs` samples, the final batch
possibly smaller.  (`bs = 0` is rejected by the real `DataLoader`; we
return no batches.) -/
def toBatches (bs : ℕ) (xs : List α) : List (List α) :=
  toBatchesGo bs xs.length xs

/-! ## The model `Net` -/

/-- The learned parameters of `Net`: weights and biases of the two
`nn.Linear` layers `fc1 : 9 → 9` and `fc2 : 9 → 4`. -/
structure NetParams where
  fc1w : Fin 9 → Fin 9 → ℚ
  fc1b : Fin 9 → ℚ
  fc2w : Fin 4 → Fin 9 → ℚ
  fc2b : Fin 4 → ℚ

/-- `nn.Linear(n, m)`: the affine map `x ↦ W x + b`. -/
def linearMap {m n : ℕ} (w : Fin m → Fin n → ℚ) (b : Fin m → ℚ)
    (x : Fin n → ℚ) : Fin m → ℚ :=
  fun i => (Finset.univ.sum fun k => w i k * x k) + b i

/-- `F.relu`. -/
def relu (v : ℚ) : ℚ := max v 0

/-- `Net.forward`: `x = F.relu(self.fc1(x)); x = self.fc2(x); return x`. -/
def Net.forward (p : NetParams) (x : Fin 9 → ℚ) : Fin 4 → ℚ :=
  let h1 := fun i => relu (linearMap p.fc1w p.fc1b x i)
  linearMap p.fc2w p.fc2b h1

/-- `torch.max(v, dim)`'s index output: the index of the first maximal
entry. -/
def argmaxFin {n : ℕ} (v : Fin (n + 1) → ℚ) : Fin (n + 1) :=
  (List.finRange (n + 1)).foldl (fun best i => if v best < v i then i else best) 0

/-- One sample as the `DatasetFolder` yields it: the standardized
feature vector and the (float-cast) label vector. -/
structure FSample where
  x : Fin 9 → ℚ
  label : Fin 4 → ℚ

/-- `preds == classnums` for one sample: the predicted argmax of the
network's logits agrees with the argmax of the label vector. -/
def netCorrect (p : NetParams) (smp : FSample) : Bool :=
  decide (argmaxFin (Net.forward p smp.x) = argmaxFin smp.label)

/-! ## The batch loop shared by `train_model` and `print_test_accuracy`

Both functions run the same per-batch body over a dataloader: compute
the outputs and the batch loss with the current weights (the criterion's
default reduction is the batch mean), backpropagate and step the
optimizer only in the training phase, and accumulate
`running_loss += loss.item() * inputs.size(0)` and
`running_corrects += sum(preds == classnums)`.  The weight type `W`, the
optimizer step and the per-sample loss are parameters (cross-entropy and
SGD are irrational-valued; every claim below is about the loop, not the
arithmetic of the criterion). -/

structure PassResult (W : Type) where
  weights : W
  running_loss : ℚ
  running_corrects : ℕ

/-- The body of `for inputs, labels in dataloaders[phase]`. -/
def runBatch {W Smp : Type} (isTrain : Bool) (optStep : W → List Smp → W)
    (sampleLoss : W → Smp → ℚ) (correct : W → Smp → Bool)
    (r : PassResult W) (b : List Smp) : PassResult W :=
  let w := r.weights
  let loss := (b.map (sampleLoss w)).sum / (b.length : ℚ)
  let w2 := if isTrain then optStep w b else w
  ⟨w2, r.running_loss + loss * (b.length : ℚ),
    r.running_corrects + b.countP (correct w)⟩

/-- One full pass of a phase over its dataloader. -/
def runPass {W Smp : Type} (isTrain : Bool) (optStep : W → List Smp → W)
    (sampleLoss : W → Smp → ℚ) (correct : W → Smp → Bool)
    (w : W) (batches : List (List Smp)) : PassResult W :=
  batches.foldl (runBatch isTrain optStep sampleLoss correct) ⟨w, 0, 0⟩

/-- `print_test_accuracy(model, criterion, optimizer, phase)` on a
non-train phase: one inference pass, returning the printed
`(epoch_loss, epoch_acc)` pair. -/
def print_test_accuracy {W Smp : Type} (optStep : W → List Smp → W)
    (sampleLoss : W → Smp → ℚ) (correct : W → Smp → Bool)
    (w : W) (batches : List (List Smp)) (datasetSize : ℕ) : W × ℚ × ℚ :=
  let r := runPass false optStep sampleLoss correct w batches
  (r.weights, r.running_loss / (datasetSize : ℚ),
    (r.running_corrects : ℚ) / (datasetSize : ℚ))

/-! ## `train_model`

The ambient pieces the loop reads (the train-phase update made of
`scheduler.step` plus the per-batch backward/optimizer steps, the
validation dataloader, the criterion, `dataset_sizes['val']`, and the
initial weights) are bundled as a `TrainSetup`. -/

structure TrainSetup (W Smp : Type) where
  trainPhase : ℕ → W → W
  optStep : W → List Smp → W
  sampleLoss : W → Smp → ℚ
  correct : W → Smp → Bool
  valBatches : List (List Smp)
  valSize : ℕ
  init : W

/-- `best_model_wts`, `best_acc` and the live model weights tracked by
`train_model`. -/
structure TMState (W : Type) where
  weights : W
  best_acc : ℚ
  best_model_wts : W

/-- One iteration of `for epoch in range(num_epochs)`: the train phase
updates the weights, the val phase runs the batch loop without
optimizing, and `if phase == 'val' and epoch_acc > best_acc` the best
accuracy and a deep copy of the current weights are recorded. -/
def trainEpoch {W Smp : Type} (c : TrainSetup W Smp)
    (s : TMState W) (epoch : ℕ) : TMState W :=
  let wT := c.trainPhase epoch s.weights
  let vr := runPass false c.optStep c.sampleLoss c.correct wT c.valBatches
  let epoch_acc : ℚ := (vr.running_corrects : ℚ) / (c.valSize : ℚ)
  if s.best_acc < epoch_acc then ⟨vr.weights, epoch_acc, vr.weights⟩
  else ⟨vr.weights, s.best_acc, s.best_model_wts⟩

/-- `train_model(model, criterion, optimizer, scheduler, num_epochs)`:
starting from `best_model_wts = deepcopy(initial weights)` and
`best_acc = 0.0`, run the epochs and finally
`model.load_state_dict(best_model_wts)`.  The returned state carries the
returned model's weights in `best_model_wts` and the printed
`Best val acc` in `best_acc`. -/
def train_model {W Smp : Type} (c : TrainSetup W Smp) (num_epochs : ℕ) :
    TMState W :=
  (List.range num_epochs).foldl (trainEpoch c) ⟨c.init, 0, c.init⟩

/-- The model weights at the start of epoch `e` (before its train
phase). -/
def wBefore {W Smp : Type} (c : TrainSetup W Smp) : ℕ → W
  | 0 => c.init
  | e + 1 =>
    (runPass false c.optStep c.sampleLoss c.correct
      (c.trainPhase e (wBefore c e)) c.valBatches).weights

/-- The model weights at the end of epoch `e`'s train phase — the
weights the validation phase of epoch `e` evaluates and, on
improvement, deep-copies into `best_model_wts`. -/
def wTrained {W Smp : Type} (c : TrainSetup W Smp) (e : ℕ) : W :=
  c.trainPhase e (wBefore c e)

/-- `epoch_acc` of the validation phase of epoch `e`. -/
def epochAcc {W Smp : Type} (c : TrainSetup W Smp) (e : ℕ) : ℚ :=
  ((runPass false c.optStep c.sampleLoss c.correct (wTrained c e)
      c.valBatches).running_corrects : ℚ) / (c.valSize : ℚ)

/-- The running maximum `best_acc` reaches after `n` epochs: the maximum
of `0.0` and the epoch validation accuracies. -/
def maxAcc {W Smp : Type} (c : TrainSetup W Smp) (n : ℕ) : ℚ :=
  (List.range n).foldl (fun m e => max m (epochAcc c e)) 0

/-! ## Helper definitions used by the statements -/

/-- The rows `make_dataset` keeps: those with no null among the
selected cells. -/
def keptRows (rows : List Row) : List Row :=
  rows.filter fun r => decide (rowComplete r)

/-- The fixed label domain of the notebook. -/
def labelDomain : List String := ["no", "small", "medium", "large"]

/-- The index the claim assigns to each known category:
`"no" ↦ 0`, `"small" ↦ 1`, `"medium" ↦ 2`, `"large" ↦ 3`. -/
def specGroupIndex (g : String) : ℕ :=
  if g = "no" then 0 else if g = "small" then 1
  else if g = "medium" then 2 else 3

/-- A one-hot vector of length 4, stated from the spec's words: a `1`
at position `i`, `0` everywhere else. -/
def specOneHot (i : ℕ) : List ℕ :=
  (List.range 4).map fun j => if j = i then 1 else 0

/-- A throwaway network with all-zero parameters, for witnesses. -/
def zeroNet : NetParams :=
  ⟨fun _ _ => 0, fun _ => 0, fun _ _ => 0, fun _ => 0⟩

/-- A tiny concrete training setup over rational weights, for witnesses:
the train phase increments the weight, there is one validation batch of
two samples, and a sample is counted correct exactly when the current
weight equals 1 (so only the first epoch scores). -/
def witnessSetup : TrainSetup ℚ ℚ where
  trainPhase := fun _ w => w + 1
  optStep := fun w _ => w
  sampleLoss := fun w x => w * x
  correct := fun w _ => decide (w = 1)
  valBatches := [[1, 2]]
  valSize := 2
  init := 0

/-- Like `witnessSetup`, but no sample is ever counted correct: every
epoch's validation accuracy is 0 while the weights keep moving. -/
def witnessSetupZero : TrainSetup ℚ ℚ :=
  { witnessSetup with correct := fun _ _ => false }

/-- A complete row whose nine features are all `1`, for witnesses. -/
def rowPlus : Row := ⟨some "no", fun _ => some 1⟩

/-- A complete row whose nine features are all `-1`, for witnesses. -/
def rowMinus : Row := ⟨some "no", fun _ => some (-1)⟩

/-- A two-row table with column mean 0 and column variance 1, for
witnesses. -/
def c4Rows : List Row := [rowPlus, rowMinus]

lemma make_dataset_fst (s : Fin 9 → ℚ) (rows : List Row) :
    (make_dataset s rows).1 =
      ((keptRows rows).map featVal).map
        (scalerTransform (colMean ((keptRows rows).map featVal)) s) := rfl

lemma make_dataset_snd (s : Fin 9 → ℚ) (rows : List Row) :
    (make_dataset s rows).2 = ((keptRows rows).map groupVal).map labelOf :=
  rfl

lemma labelOf_of_unknown (g : String) (h1 : g ≠ "no") (h2 : g ≠ "small")
    (h3 : g ≠ "medium") (h4 : g ≠ "large") : labelOf g = [0, 0, 0, 0] := by
  simp [labelOf, h1, h2, h3, h4]

/-! ## C2 — unknown category strings give the all-zero label -/

/-- C2: a loaded row whose `Cgroup` is none of `"no"`, `"small"`,
`"medium"`, `"large"` is not skipped by `make_dataset`: it still
contributes a pair at its position, and the label appended for it is
`[0, 0, 0, 0]`. -/
theorem c2_unknown_group_zero_label (s : Fin 9 → ℚ) (rows : List Row)
    (i : ℕ) (hi : i < (keptRows rows).length)
    (hg : groupVal ((keptRows rows).get ⟨i, hi⟩) ∉ labelDomain) :
    (make_dataset s rows).2.length = (keptRows rows).length ∧
      (make_dataset s rows).2.get? i = some [0, 0, 0, 0] := by
  constructor
  · rw [make_dataset_snd]; simp
  · rw [make_dataset_snd, List.map_map]
    rw [List.get?_map, List.get?_eq_get hi]
    simp only [labelDomain, List.mem_cons, List.not_mem_nil, or_false, not_or] at hg
    simp only [Option.map_some', Function.comp_apply]
    rw [labelOf_of_unknown _ hg.1 hg.2.1 hg.2.2.1 hg.2.2.2]

/-- Witness for C2: a complete row with the unknown category `"huge"`
is kept and labelled `[0, 0, 0, 0]`. -/
theorem c2_unknown_group_zero_label_witness :
    (make_dataset (fun _ => 1)
        [⟨some "huge", fun _ => some 1⟩]).2.get? 0 = some [0, 0, 0, 0] :=
  (c2_unknown_group_zero_label (fun _ => 1) [⟨some "huge", fun _ => some 1⟩]
    0 (by decide) (by decide)).2

/-! ## C5 — known categories give the fixed one-hot labels -/

/-- C5: on the fixed domain `{no, small, medium, large}` the label is
one-hot of length 4: a single `1` at index 0, 1, 2, 3 respectively, and
`0` everywhere else. -/
theorem c5_one_hot_labels (g : String) (hg : g ∈ labelDomain) :
    labelOf g = specOneHot (specGroupIndex g) ∧
      (labelOf g).length = 4 ∧
      (labelOf g).count 1 = 1 ∧
      (∀ v ∈ labelOf g, v = 0 ∨ v = 1) ∧
      (labelOf g).get? (specGroupIndex g) = some 1 := by
  simp only [labelDomain, List.mem_cons, List.not_mem_nil, or_false] at hg
  rcases hg with rfl | rfl | rfl | rfl <;>
    exact ⟨by decide, by decide, by decide, by decide, by decide⟩

/-- Witness for C5 at `g = "small"`. -/
theorem c5_one_hot_labels_witness :
    labelOf "small" = specOneHot (specGroupIndex "small") ∧
      (labelOf "small").length = 4 ∧
      (labelOf "small").count 1 = 1 ∧
      (∀ v ∈ labelOf "small", v = 0 ∨ v = 1) ∧
      (labelOf "small").get? (specGroupIndex "small") = some 1 :=
  c5_one_hot_labels "small" (by decide)

/-! ## C6 — exactly the rows with a missing value are dropped -/

/-- C6: `make_dataset` keeps a row iff it has no missing value among
the selected cells; every kept row contributes exactly one
(feature, label) pair, in order, and nothing else is done to malformed
rows (the function is total: it raises nothing and repairs nothing). -/
theorem c6_drop_iff_null (s : Fin 9 → ℚ) (rows : List Row)
    (r : Row) (hr : r ∈ rows) :
    (make_dataset s rows).1.length = (keptRows rows).length ∧
      (make_dataset s rows).2.length = (keptRows rows).length ∧
      (make_dataset s rows).2 = (keptRows rows).map (fun k => labelOf (groupVal k)) ∧
      (r ∈ keptRows rows ↔ rowComplete r) := by
  refine ⟨?_, ?_, by rw [make_dataset_snd, List.map_map]; rfl, ?_⟩
  · rw [make_dataset_fst]; simp
  · rw [make_dataset_snd]; simp
  · simp [keptRows, List.mem_filter, hr]

/-- Witness for C6: of two concrete rows, the complete one is kept and
the one with a null cell is dropped. -/
theorem c6_drop_iff_null_witness :
    ((make_dataset (fun _ => 1)
        [⟨some "no", fun _ => some 1⟩, ⟨none, fun _ => some 1⟩]).1.length = 1) ∧
      (⟨some "no", fun _ => some 1⟩ ∈
          keptRows [⟨some "no", fun _ => some 1⟩, ⟨none, fun _ => some 1⟩] ↔
        rowComplete ⟨some "no", fun _ => some 1⟩) := by
  have h := c6_drop_iff_null (fun _ => 1)
    [⟨some "no", fun _ => some 1⟩, ⟨none, fun _ => some 1⟩]
    ⟨some "no", fun _ => some 1⟩ (List.mem_cons_self _ _)
  refine ⟨?_, h.2.2.2⟩
  rw [h.1]
  rfl

/-! ## C7 — `Net` is affine 9→9, ReLU, affine 9→4, raw logits -/

/-- C7: on any width-9 input, `Net.forward` returns exactly the width-4
vector `fc2(relu(fc1(x)))`, written out: an affine 9→9 layer, a
componentwise ReLU, an affine 9→4 layer, and no further activation. -/
theorem c7_net_forward_structure (p : NetParams) (x : Fin 9 → ℚ) (j : Fin 4) :
    Net.forward p x j =
      (Finset.univ.sum fun i =>
        p.fc2w j i *
          max ((Finset.univ.sum fun k => p.fc1w i k * x k) + p.fc1b i) 0) +
        p.fc2b j := by
  simp [Net.forward, linearMap, relu]

/-! ## Batching lemmas -/

lemma toBatchesGo_join {α : Type} (bs : ℕ) (hbs : 0 < bs) :
    ∀ (fuel : ℕ) (xs : List α), xs.length ≤ fuel →
      (toBatchesGo bs fuel xs).join = xs := by
  intro fuel
  induction fuel with
  | zero =>
    intro xs h
    have hx : xs = [] := List.eq_nil_of_length_eq_zero (Nat.le_zero.mp h)
    subst hx
    simp [toBatchesGo]
  | succ fuel ih =>
    intro xs h
    by_cases hx : xs.length = 0
    · have hx0 : xs = [] := List.eq_nil_of_length_eq_zero hx
      subst hx0
      simp [toBatchesGo]
    · rw [toBatchesGo, if_neg (by omega)]
      have hcons : (List.take bs xs :: toBatchesGo bs fuel (xs.drop bs)).join =
          List.take bs xs ++ (toBatchesGo bs fuel (xs.drop bs)).join := rfl
      rw [hcons, ih (xs.drop bs) (by simp only [List.length_drop]; omega)]
      exact List.take_append_drop bs xs

lemma mem_toBatchesGo {α : Type} (bs : ℕ) :
    ∀ (fuel : ℕ) (xs : List α) (b : List α), b ∈ toBatchesGo bs fuel xs →
      b ≠ [] ∧ b.length ≤ bs := by
  intro fuel
  induction fuel with
  | zero => intro xs b hb; simp [toBatchesGo] at hb
  | succ fuel ih =>
    intro xs b hb
    rw [toBatchesGo] at hb
    by_cases hc : bs = 0 ∨ xs.length = 0
    · rw [if_pos hc] at hb; simp at hb
    · rw [if_neg hc] at hb
      push_neg at hc
      rcases List.mem_cons.mp hb with rfl | hb2
      · refine ⟨?_, by simp⟩
        intro hnil
        rcases List.take_eq_nil_iff.mp hnil with h0 | h0
        · exact hc.1 h0
        · exact hc.2 (by simp [h0])
      · exact ih (xs.drop bs) b hb2

lemma toBatchesGo_eq_nil_iff {α : Type} (bs fuel : ℕ) (xs : List α)
    (h : xs.length ≤ fuel) :
    toBatchesGo bs fuel xs = [] ↔ bs = 0 ∨ xs.length = 0 := by
  cases fuel with
  | zero =>
    have hx : xs.length = 0 := Nat.le_zero.mp h
    simp [toBatchesGo, hx]
  | succ fuel =>
    rw [toBatchesGo]
    by_cases hc : bs = 0 ∨ xs.length = 0
    · rw [if_pos hc]; simpa using hc
    · rw [if_neg hc]; simpa using hc

lemma dropLast_toBatchesGo {α : Type} (bs : ℕ) :
    ∀ (fuel : ℕ) (xs : List α), xs.length ≤ fuel →
      ∀ b ∈ (toBatchesGo bs fuel xs).dropLast, b.length = bs := by
  intro fuel
  induction fuel with
  | zero => intro xs h b hb; simp [toBatchesGo] at hb
  | succ fuel ih =>
    intro xs h b hb
    rw [toBatchesGo] at hb
    by_cases hc : bs = 0 ∨ xs.length = 0
    · rw [if_pos hc] at hb; simp at hb
    · rw [if_neg hc] at hb
      push_neg at hc
      by_cases hrest : toBatchesGo bs fuel (xs.drop bs) = []
      · rw [hrest] at hb; simp at hb
      · rw [List.dropLast_cons_of_ne_nil hrest] at hb
        have hdlen : (xs.drop bs).length ≤ fuel := by
          simp only [List.length_drop]; omega
        rcases List.mem_cons.mp hb with rfl | hb2
        · have hlt : bs < xs.length := by
            have h2 : ¬ (bs = 0 ∨ (xs.drop bs).length = 0) := by
              intro h3
              exact hrest ((toBatchesGo_eq_nil_iff bs fuel (xs.drop bs) hdlen).mpr h3)
            push_neg at h2
            simp only [List.length_drop] at h2
            omega
          simp [List.length_take]
          omega
        · exact ih (xs.drop bs) hdlen b hb2

lemma toBatches_join {α : Type} (bs : ℕ) (hbs : 0 < bs) (xs : List α) :
    (toBatches bs xs).join = xs :=
  toBatchesGo_join bs hbs xs.length xs le_rfl

lemma mem_toBatches {α : Type} (bs : ℕ) (xs : List α) (b : List α)
    (hb : b ∈ toBatches bs xs) : b ≠ [] ∧ b.length ≤ bs :=
  mem_toBatchesGo bs xs.length xs b hb

lemma dropLast_toBatches {α : Type} (bs : ℕ) (xs : List α) :
    ∀ b ∈ (toBatches bs xs).dropLast, b.length = bs :=
  dropLast_toBatchesGo bs xs.length xs le_rfl

/-! ## C9 — dataloader passes -/

/-- C9: one pass of the training dataloader yields exactly the training
split in the shuffled order `p`, and one pass of the validation or test
dataloader yields that split in its stored order; in each pass every
sample of the split appears exactly once (the concatenation of the
batches is the split, up to the training shuffle), every batch is
nonempty with at most `bs` samples, and every batch except possibly the
final one has exactly `bs` samples. -/
theorem c9_dataloader_batches {α : Type} (bs : ℕ) (hbs : 0 < bs)
    (trainData p valData testData : List α) (hp : p.Perm trainData) :
    ((toBatches bs p).join.Perm trainData) ∧
      (toBatches bs valData).join = valData ∧
      (toBatches bs testData).join = testData ∧
      (∀ b ∈ toBatches bs p, b ≠ [] ∧ b.length ≤ bs) ∧
      (∀ b ∈ toBatches bs valData, b ≠ [] ∧ b.length ≤ bs) ∧
      (∀ b ∈ toBatches bs testData, b ≠ [] ∧ b.length ≤ bs) ∧
      (∀ b ∈ (toBatches bs p).dropLast, b.length = bs) ∧
      (∀ b ∈ (toBatches bs valData).dropLast, b.length = bs) ∧
      (∀ b ∈ (toBatches bs testData).dropLast, b.length = bs) :=
  ⟨(toBatches_join bs hbs p).symm ▸ hp,
    toBatches_join bs hbs valData,
    toBatches_join bs hbs testData,
    mem_toBatches bs p,
    mem_toBatches bs valData,
    mem_toBatches bs testData,
    dropLast_toBatches bs p,
    dropLast_toBatches bs valData,
    dropLast_toBatches bs testData⟩

/-- Witness for C9 at batch size 64 and concrete splits. -/
theorem c9_dataloader_batches_witness :
    ((toBatches 64 [2, 0, 1]).join.Perm [0, 1, 2]) ∧
      (toBatches 64 [3, 4]).join = [3, 4] ∧
      (toBatches 64 [5]).join = [5] ∧
      (∀ b ∈ toBatches 64 [2, 0, 1], b ≠ [] ∧ b.length ≤ 64) ∧
      (∀ b ∈ toBatches 64 [3, 4], b ≠ [] ∧ b.length ≤ 64) ∧
      (∀ b ∈ toBatches 64 [5], b ≠ [] ∧ b.length ≤ 64) ∧
      (∀ b ∈ (toBatches 64 [2, 0, 1]).dropLast, b.length = 64) ∧
      (∀ b ∈ (toBatches 64 [3, 4]).dropLast, b.length = 64) ∧
      (∀ b ∈ (toBatches 64 [5]).dropLast, b.length = 64) :=
  c9_dataloader_batches 64 (by decide) [0, 1, 2] [2, 0, 1] [3, 4] [5] (by decide)

/-! ## Evaluation-pass lemmas -/

lemma sum_div_len_mul_len {Smp : Type} (f : Smp → ℚ) (b : List Smp) :
    ((b.map f).sum / (b.length : ℚ)) * (b.length : ℚ) = (b.map f).sum := by
  rcases b with _ | ⟨x, t⟩
  · simp
  · refine div_mul_cancel₀ _ ?_
    have : (x :: t).length = t.length + 1 := rfl
    rw [this]
    push_cast
    positivity

lemma foldl_runBatch_false {W Smp : Type} (optStep : W → List Smp → W)
    (sampleLoss : W → Smp → ℚ) (correct : W → Smp → Bool) (w : W) :
    ∀ (bs : List (List Smp)) (l0 : ℚ) (c0 : ℕ),
      bs.foldl (runBatch false optStep sampleLoss correct) ⟨w, l0, c0⟩ =
        ⟨w, l0 + ((bs.join).map (sampleLoss w)).sum,
          c0 + (bs.join).countP (correct w)⟩ := by
  intro bs
  induction bs with
  | nil => intro l0 c0; simp
  | cons b t ih =>
    intro l0 c0
    rw [List.foldl_cons]
    have hb : runBatch false optStep sampleLoss correct ⟨w, l0, c0⟩ b =
        ⟨w, l0 + (b.map (sampleLoss w)).sum, c0 + b.countP (correct w)⟩ := by
      simp only [runBatch, Bool.false_eq_true, if_false]
      rw [sum_div_len_mul_len]
    rw [hb, ih]
    have hj : ((b :: t).join : List Smp) = b ++ t.join := rfl
    simp [hj, List.countP_append, add_assoc]

lemma runPass_false_eq {W Smp : Type} (optStep : W → List Smp → W)
    (sampleLoss : W → Smp → ℚ) (correct : W → Smp → Bool) (w : W)
    (batches : List (List Smp)) :
    runPass false optStep sampleLoss correct w batches =
      ⟨w, ((batches.join).map (sampleLoss w)).sum,
        (batches.join).countP (correct w)⟩ := by
  rw [runPass, foldl_runBatch_false]
  simp

/-! ## C8 — evaluation passes are inference-only -/

/-- C8: an evaluation pass (the validation phase of `train_model`, or
`print_test_accuracy`) performs no optimizer step: the weights after
the pass are exactly the weights before it, and within `train_model`
the weights after a whole epoch are the ones its train phase produced.
The printed aggregates are the sample-weighted mean of the per-sample
losses over the split and the fraction of samples counted correct; with
the notebook's criterion of correctness, that fraction counts the
samples whose predicted argmax over the logits equals the argmax of the
one-hot label. -/
theorem c8_inference_only {W Smp : Type} (optStep : W → List Smp → W)
    (sampleLoss : W → Smp → ℚ) (correct : W → Smp → Bool) (w : W)
    (bs : ℕ) (hbs : 0 < bs) (xs : List Smp)
    (c : TrainSetup W Smp) (s : TMState W) (e : ℕ)
    (optStep2 : NetParams → List FSample → NetParams)
    (sampleLoss2 : NetParams → FSample → ℚ) (p : NetParams)
    (ys : List FSample) :
    ((runPass false optStep sampleLoss correct w (toBatches bs xs)).weights = w) ∧
      ((trainEpoch c s e).weights = c.trainPhase e s.weights) ∧
      (print_test_accuracy optStep sampleLoss correct w (toBatches bs xs) xs.length =
        (w, (xs.map (sampleLoss w)).sum / (xs.length : ℚ),
          ((xs.countP (correct w) : ℚ)) / (xs.length : ℚ))) ∧
      ((print_test_accuracy optStep2 sampleLoss2 netCorrect p (toBatches bs ys)
          ys.length).2.2 =
        ((ys.countP fun smp =>
            decide (argmaxFin (Net.forward p smp.x) = argmaxFin smp.label) : ℚ)) /
          (ys.length : ℚ)) := by
  refine ⟨?_, ?_, ?_, ?_⟩
  · rw [runPass_false_eq]
  · simp only [trainEpoch, runPass_false_eq]
    split <;> rfl
  · rw [print_test_accuracy, runPass_false_eq, toBatches_join bs hbs]
  · rw [print_test_accuracy, runPass_false_eq, toBatches_join bs hbs]
    rfl

/-- Witness for C8 at a concrete weight state, split and batch size. -/
theorem c8_inference_only_witness :
    ((runPass false (fun (w : ℚ) (_ : List ℚ) => w + 1) (fun w x => w * x)
        (fun w x => decide (x < w)) 10 (toBatches 2 [1, 2, 3])).weights = 10) ∧
      ((trainEpoch witnessSetup ⟨5, 0, 5⟩ 0).weights =
        witnessSetup.trainPhase 0 (5 : ℚ)) ∧
      (print_test_accuracy (fun (w : ℚ) (_ : List ℚ) => w + 1) (fun w x => w * x)
          (fun w x => decide (x < w)) 10 (toBatches 2 [1, 2, 3]) 3 =
        (10, ([1, 2, 3].map (fun x => (10 : ℚ) * x)).sum / (3 : ℚ),
          (([1, 2, 3].countP (fun x => decide (x < (10 : ℚ))) : ℚ)) / (3 : ℚ))) ∧
      ((print_test_accuracy (fun p _ => p) (fun _ _ => 0) netCorrect zeroNet
          (toBatches 2 ([] : List FSample)) 0).2.2 =
        ((([] : List FSample).countP fun smp =>
            decide (argmaxFin (Net.forward zeroNet smp.x) = argmaxFin smp.label) : ℚ)) /
          ((0 : ℕ) : ℚ)) := by
  have h := c8_inference_only (fun (w : ℚ) (_ : List ℚ) => w + 1)
    (fun w x => w * x) (fun w x => decide (x < w)) 10 2 (by decide) [1, 2, 3]
    witnessSetup ⟨5, 0, 5⟩ 0 (fun p _ => p) (fun _ _ => 0) zeroNet []
  exact h

/-! ## Training-loop lemmas -/

lemma train_model_succ {W Smp : Type} (c : TrainSetup W Smp) (n : ℕ) :
    train_model c (n + 1) = trainEpoch c (train_model c n) n := by
  simp [train_model, List.range_succ]

lemma wBefore_succ {W Smp : Type} (c : TrainSetup W Smp) (n : ℕ) :
    wBefore c (n + 1) = wTrained c n := by
  show (runPass false c.optStep c.sampleLoss c.correct
      (c.trainPhase n (wBefore c n)) c.valBatches).weights = wTrained c n
  rw [runPass_false_eq]
  rfl

lemma trainEpoch_eq {W Smp : Type} (c : TrainSetup W Smp) (n : ℕ)
    (s : TMState W) (hs : s.weights = wBefore c n) :
    trainEpoch c s n =
      if s.best_acc < epochAcc c n then
        ⟨wTrained c n, epochAcc c n, wTrained c n⟩
      else ⟨wTrained c n, s.best_acc, s.best_model_wts⟩ := by
  simp only [trainEpoch, epochAcc, wTrained, hs]
  rw [runPass_false_eq]

lemma epochAcc_nonneg {W Smp : Type} (c : TrainSetup W Smp) (e : ℕ) :
    0 ≤ epochAcc c e :=
  div_nonneg (Nat.cast_nonneg _) (Nat.cast_nonneg _)

lemma maxAcc_succ {W Smp : Type} (c : TrainSetup W Smp) (n : ℕ) :
    maxAcc c (n + 1) = max (maxAcc c n) (epochAcc c n) := by
  simp [maxAcc, List.range_succ]

lemma maxAcc_nonneg {W Smp : Type} (c : TrainSetup W Smp) (n : ℕ) :
    0 ≤ maxAcc c n := by
  induction n with
  | zero => exact le_refl 0
  | succ n ih => rw [maxAcc_succ]; exact le_trans ih (le_max_left _ _)

lemma le_maxAcc {W Smp : Type} (c : TrainSetup W Smp) {e n : ℕ} (h : e < n) :
    epochAcc c e ≤ maxAcc c n := by
  induction n with
  | zero => omega
  | succ n ih =>
    rw [maxAcc_succ]
    rcases Nat.lt_succ_iff_lt_or_eq.mp h with h2 | rfl
    · exact le_trans (ih h2) (le_max_left _ _)
    · exact le_max_right _ _

lemma train_model_weights {W Smp : Type} (c : TrainSetup W Smp) :
    ∀ n, (train_model c n).weights = wBefore c n := by
  intro n
  induction n with
  | zero => rfl
  | succ n ih =>
    rw [train_model_succ, trainEpoch_eq c n _ ih, wBefore_succ]
    split <;> rfl

lemma train_model_best_acc {W Smp : Type} (c : TrainSetup W Smp) :
    ∀ n, (train_model c n).best_acc = maxAcc c n := by
  intro n
  induction n with
  | zero => rfl
  | succ n ih =>
    rw [train_model_succ, trainEpoch_eq c n _ (train_model_weights c n),
      maxAcc_succ, ih]
    by_cases h : maxAcc c n < epochAcc c n
    · rw [if_pos h]
      exact (max_eq_right h.le).symm
    · rw [if_neg h]
      exact (max_eq_left (not_lt.mp h)).symm

lemma train_model_best_wts {W Smp : Type} (c : TrainSetup W Smp) :
    ∀ n, ((train_model c n).best_model_wts = c.init ∧ maxAcc c n = 0) ∨
      (0 < maxAcc c n ∧ ∃ e, e < n ∧ epochAcc c e = maxAcc c n ∧
        (∀ f, f < e → epochAcc c f < maxAcc c n) ∧
        (train_model c n).best_model_wts = wTrained c e) := by
  intro n
  induction n with
  | zero => exact Or.inl ⟨rfl, rfl⟩
  | succ n ih =>
    rw [train_model_succ, trainEpoch_eq c n _ (train_model_weights c n)]
    by_cases h : (train_model c n).best_acc < epochAcc c n
    · rw [if_pos h]
      rw [train_model_best_acc] at h
      have hpos : 0 < epochAcc c n := lt_of_le_of_lt (maxAcc_nonneg c n) h
      have hmax : maxAcc c (n + 1) = epochAcc c n := by
        rw [maxAcc_succ]; exact max_eq_right h.le
      right
      refine ⟨hmax ▸ hpos, n, n.lt_succ_self, by rw [hmax], ?_, rfl⟩
      intro f hf
      rw [hmax]
      exact lt_of_le_of_lt (le_maxAcc c hf) h
    · rw [if_neg h]
      rw [train_model_best_acc] at h
      have hmax : maxAcc c (n + 1) = maxAcc c n := by
        rw [maxAcc_succ]; exact max_eq_left (not_lt.mp h)
      rcases ih with ⟨hw, hz⟩ | ⟨hpos, e, he, hacc, hlt, hw⟩
      · exact Or.inl ⟨hw, by rw [hmax, hz]⟩
      · exact Or.inr ⟨hmax ▸ hpos, e, Nat.lt_succ_of_lt he, by rw [hmax]; exact hacc,
          fun f hf => hmax ▸ hlt f hf, hw⟩

lemma maxAcc_attained {W Smp : Type} (c : TrainSetup W Smp) {n : ℕ}
    (hn : 1 ≤ n) : ∃ e, e < n ∧ epochAcc c e = maxAcc c n := by
  rcases train_model_best_wts c n with ⟨_, hz⟩ | ⟨_, e, he, hacc, _, _⟩
  · have h1 : epochAcc c 0 ≤ 0 := hz ▸ le_maxAcc c hn
    exact ⟨0, hn, by rw [hz]; exact le_antisymm h1 (epochAcc_nonneg c 0)⟩
  · exact ⟨e, he, hacc⟩

/-! ### Evaluation of the concrete witness setups -/

lemma wTrained_witnessSetup_zero : wTrained witnessSetup 0 = 1 := by
  show witnessSetup.trainPhase 0 (wBefore witnessSetup 0) = 1
  norm_num [witnessSetup, wBefore]

lemma wTrained_witnessSetup_one : wTrained witnessSetup 1 = 2 := by
  show witnessSetup.trainPhase 1 (wBefore witnessSetup 1) = 2
  rw [wBefore_succ, wTrained_witnessSetup_zero]
  norm_num [witnessSetup]

lemma wTrained_witnessSetupZero_zero : wTrained witnessSetupZero 0 = 1 := by
  show witnessSetupZero.trainPhase 0 (wBefore witnessSetupZero 0) = 1
  norm_num [witnessSetupZero, witnessSetup, wBefore]

lemma epochAcc_witnessSetup_zero : epochAcc witnessSetup 0 = 1 := by
  rw [epochAcc, runPass_false_eq, wTrained_witnessSetup_zero]
  norm_num [witnessSetup]

lemma epochAcc_witnessSetup_one : epochAcc witnessSetup 1 = 0 := by
  rw [epochAcc, runPass_false_eq, wTrained_witnessSetup_one]
  norm_num [witnessSetup]

lemma epochAcc_witnessSetupZero_eq (e : ℕ) : epochAcc witnessSetupZero e = 0 := by
  rw [epochAcc, runPass_false_eq]
  norm_num [witnessSetupZero, witnessSetup]

lemma maxAcc_witnessSetup_two : maxAcc witnessSetup 2 = 1 := by
  rw [show (2 : ℕ) = 1 + 1 from rfl, maxAcc_succ,
    show (1 : ℕ) = 0 + 1 from rfl, maxAcc_succ,
    epochAcc_witnessSetup_zero, epochAcc_witnessSetup_one]
  rw [show maxAcc witnessSetup 0 = 0 from rfl]
  rw [max_eq_right (by norm_num : (0 : ℚ) ≤ 1)]
  exact max_eq_left (by norm_num)

lemma maxAcc_witnessSetupZero_one : maxAcc witnessSetupZero 1 = 0 := by
  rw [show (1 : ℕ) = 0 + 1 from rfl, maxAcc_succ, epochAcc_witnessSetupZero_eq]
  rw [show maxAcc witnessSetupZero 0 = 0 from rfl]
  exact max_eq_left le_rfl

/-! ## C10 — strict-improvement tracking: earliest winner, zero edge case -/

/-- C10: because `best_acc` starts at `0.0` and is overwritten only on
strict improvement, `train_model` retains the weights of the earliest
epoch attaining the maximum validation accuracy when several epochs
tie, and if no epoch achieves validation accuracy strictly greater
than 0 the returned model carries the initial pre-training weights
deep-copied before the first epoch. -/
theorem c10_strict_improvement_earliest {W Smp : Type} (c : TrainSetup W Smp)
    (n : ℕ) :
    ((∀ e, e < n → ¬ 0 < epochAcc c e) →
        (train_model c n).best_model_wts = c.init ∧
          (train_model c n).best_acc = 0) ∧
      (0 < maxAcc c n →
        (∀ f, f < n → epochAcc c f ≤ maxAcc c n) ∧
          ∃ e, e < n ∧ epochAcc c e = maxAcc c n ∧
            (∀ f, f < e → epochAcc c f < maxAcc c n) ∧
            (train_model c n).best_model_wts = wTrained c e) := by
  constructor
  · intro h
    have hz : ∀ m, m ≤ n → maxAcc c m = 0 := by
      intro m
      induction m with
      | zero => intro _; rfl
      | succ m ihm =>
        intro hm
        have hA : epochAcc c m = 0 :=
          le_antisymm (not_lt.mp (h m (by omega))) (epochAcc_nonneg c m)
        rw [maxAcc_succ, ihm (by omega), hA]
        simp
    rcases train_model_best_wts c n with ⟨hw, _⟩ | ⟨hpos, _⟩
    · exact ⟨hw, by rw [train_model_best_acc, hz n le_rfl]⟩
    · rw [hz n le_rfl] at hpos
      exact absurd hpos (lt_irrefl 0)
  · intro hpos
    refine ⟨fun f hf => le_maxAcc c hf, ?_⟩
    rcases train_model_best_wts c n with ⟨_, hz⟩ | ⟨_, hex⟩
    · rw [hz] at hpos
      exact absurd hpos (lt_irrefl 0)
    · exact hex

/-- Witness for C10: with every epoch scoring 0 the initial weights are
returned; with a strict winner at epoch 0 that epoch's trained weights
are returned. -/
theorem c10_strict_improvement_earliest_witness :
    ((train_model witnessSetupZero 2).best_model_wts = witnessSetupZero.init ∧
        (train_model witnessSetupZero 2).best_acc = 0) ∧
      ((∀ f, f < 2 → epochAcc witnessSetup f ≤ maxAcc witnessSetup 2) ∧
        ∃ e, e < 2 ∧ epochAcc witnessSetup e = maxAcc witnessSetup 2 ∧
          (∀ f, f < e → epochAcc witnessSetup f < maxAcc witnessSetup 2) ∧
          (train_model witnessSetup 2).best_model_wts = wTrained witnessSetup e) :=
  ⟨(c10_strict_improvement_earliest witnessSetupZero 2).1
      (fun e _ => by rw [epochAcc_witnessSetupZero_eq]; exact lt_irrefl 0),
    (c10_strict_improvement_earliest witnessSetup 2).2
      (by rw [maxAcc_witnessSetup_two]; norm_num)⟩

/-! ## C1 — the returned model and the printed best accuracy -/

/-- C1 counterexample: a one-epoch run whose single validation accuracy
is 0 (which is then the maximum over all epochs) while the train phase
moves the weights.  The printed `Best val acc` does equal the maximum,
but the returned model carries the initial weights, not the deep copy
taken at the end of the validation phase of any maximising epoch — so
the claim's conjunction fails. -/
theorem c1_counterexample :
    ¬ ((train_model witnessSetupZero 1).best_acc = epochAcc witnessSetupZero 0 ∧
        ∃ e, e < 1 ∧ epochAcc witnessSetupZero e = epochAcc witnessSetupZero 0 ∧
          (train_model witnessSetupZero 1).best_model_wts =
            wTrained witnessSetupZero e) := by
  rintro ⟨_, e, he, _, hw⟩
  have he0 : e = 0 := by omega
  subst he0
  have hbw : (train_model witnessSetupZero 1).best_model_wts =
      witnessSetupZero.init := by
    rcases train_model_best_wts witnessSetupZero 1 with ⟨hw0, _⟩ | ⟨hpos, _⟩
    · exact hw0
    · rw [maxAcc_witnessSetupZero_one] at hpos
      exact absurd hpos (lt_irrefl 0)
  rw [hbw, wTrained_witnessSetupZero_zero] at hw
  have h01 : (0 : ℚ) = 1 := by
    simpa [witnessSetupZero, witnessSetup] using hw
  norm_num at h01

/-- C1 (amended): over at least one epoch, the printed `Best val acc`
equals the maximum validation accuracy over all epochs; and provided
that maximum is positive, the model returned bears the deep-copied
weights recorded at the end of the validation phase of an epoch whose
validation accuracy equals it. -/
theorem c1_best_val_checkpoint {W Smp : Type} (c : TrainSetup W Smp) (n : ℕ)
    (hn : 1 ≤ n) :
    (∃ e, e < n ∧ epochAcc c e = (train_model c n).best_acc) ∧
      (∀ f, f < n → epochAcc c f ≤ (train_model c n).best_acc) ∧
      (0 < (train_model c n).best_acc →
        ∃ e, e < n ∧ epochAcc c e = (train_model c n).best_acc ∧
          (train_model c n).best_model_wts = wTrained c e) := by
  rw [train_model_best_acc]
  refine ⟨maxAcc_attained c hn, fun f hf => le_maxAcc c hf, ?_⟩
  intro hpos
  rcases train_model_best_wts c n with ⟨_, hz⟩ | ⟨_, e, he, hacc, _, hw⟩
  · rw [hz] at hpos
    exact absurd hpos (lt_irrefl 0)
  · exact ⟨e, he, hacc, hw⟩

/-- Witness for C1 at the concrete setup whose first epoch scores. -/
theorem c1_best_val_checkpoint_witness :
    (∃ e, e < 2 ∧ epochAcc witnessSetup e = (train_model witnessSetup 2).best_acc) ∧
      (∀ f, f < 2 → epochAcc witnessSetup f ≤ (train_model witnessSetup 2).best_acc) ∧
      (0 < (train_model witnessSetup 2).best_acc →
        ∃ e, e < 2 ∧ epochAcc witnessSetup e = (train_model witnessSetup 2).best_acc ∧
          (train_model witnessSetup 2).best_model_wts = wTrained witnessSetup e) :=
  c1_best_val_checkpoint witnessSetup 2 (by norm_num)

/-! ## C3 — the two `train_test_split` calls -/

/-- C3 counterexample: on 7 loaded samples the sizes are
train 3, validation 2, test 2 — the ceil rounding of sklearn — and
3 ≠ 60% of 7, so the sizes are not in exact proportion 60/20/20. -/
theorem c3_counterexample :
    ¬ (((splitDataset (List.range 7)
          ((train_test_split 1 5 (List.range 7)).1)).1.length : ℚ) =
        3 / 5 * 7 ∧
      ((splitDataset (List.range 7)
          ((train_test_split 1 5 (List.range 7)).1)).2.1.length : ℚ) =
        1 / 5 * 7 ∧
      ((splitDataset (List.range 7)
          ((train_test_split 1 5 (List.range 7)).1)).2.2.length : ℚ) =
        1 / 5 * 7) := by
  rintro ⟨h, -, -⟩
  rw [show (splitDataset (List.range 7)
      ((train_test_split 1 5 (List.range 7)).1)).1.length = 3 from rfl] at h
  norm_num at h

/-- C3 (amended): the three subsets together contain every loaded
sample exactly once, and (on duplicate-free samples) are pairwise
disjoint; their sizes follow sklearn's ceil rounding —
`test = ⌈n/5⌉`, `val = ⌈(n − test)/4⌉`, `train` the rest — which is the
exact 60% / 20% / 20% proportion precisely when a multiple of 5 samples
is loaded. -/
theorem c3_split_partition {α : Type} (n : ℕ) (samples p q : List α)
    (hs : samples.length = n) (hp : p.Perm samples)
    (hq : q.Perm (train_test_split 1 5 p).1) :
    (((splitDataset p q).1 ++ (splitDataset p q).2.1 ++
        (splitDataset p q).2.2).Perm samples) ∧
      ((splitDataset p q).2.2.length = (n + 4) / 5 ∧
        (splitDataset p q).2.1.length = ((n - (n + 4) / 5) + 3) / 4 ∧
        (splitDataset p q).1.length =
          (n - (n + 4) / 5) - ((n - (n + 4) / 5) + 3) / 4) ∧
      (5 ∣ n →
        (((splitDataset p q).1.length : ℚ) = (3 / 5) * n ∧
          ((splitDataset p q).2.1.length : ℚ) = (1 / 5) * n ∧
          ((splitDataset p q).2.2.length : ℚ) = (1 / 5) * n)) ∧
      (samples.Nodup →
        ((splitDataset p q).1.Disjoint (splitDataset p q).2.1 ∧
          (splitDataset p q).1.Disjoint (splitDataset p q).2.2 ∧
          (splitDataset p q).2.1.Disjoint (splitDataset p q).2.2)) := by
  have hpl : p.length = n := hp.length_eq.trans hs
  have htmp : (train_test_split 1 5 p).1 = p.drop (nTestSize 1 5 p.length) := rfl
  have hql : q.length = n - (n + 4) / 5 := by
    rw [hq.length_eq, htmp, List.length_drop, hpl]
    unfold nTestSize
    omega
  have hsplit : splitDataset p q =
      (q.drop (nTestSize 1 4 q.length), q.take (nTestSize 1 4 q.length),
        p.take (nTestSize 1 5 p.length)) := rfl
  have ht5 : nTestSize 1 5 p.length = (n + 4) / 5 := by
    rw [hpl]; unfold nTestSize; omega
  have ht4 : nTestSize 1 4 q.length = ((n - (n + 4) / 5) + 3) / 4 := by
    rw [hql]; unfold nTestSize; omega
  refine ⟨?_, ⟨?_, ?_, ?_⟩, ?_, ?_⟩
  · -- one permutation of the loaded samples
    rw [hsplit]
    have h1 : (q.drop (nTestSize 1 4 q.length) ++
        q.take (nTestSize 1 4 q.length)).Perm q :=
      (List.perm_append_comm).trans
        (by rw [List.take_append_drop])
    have h2 : ((q.drop (nTestSize 1 4 q.length) ++
        q.take (nTestSize 1 4 q.length)) ++
          p.take (nTestSize 1 5 p.length)).Perm
        (q ++ p.take (nTestSize 1 5 p.length)) :=
      h1.append_right _
    have h3 : (q ++ p.take (nTestSize 1 5 p.length)).Perm
        (p.drop (nTestSize 1 5 p.length) ++ p.take (nTestSize 1 5 p.length)) :=
      (hq.trans (by rw [htmp])).append_right _
    have h4 : (p.drop (nTestSize 1 5 p.length) ++
        p.take (nTestSize 1 5 p.length)).Perm p :=
      (List.perm_append_comm).trans (by rw [List.take_append_drop])
    exact h2.trans (h3.trans (h4.trans hp))
  · rw [hsplit]
    simp only [List.length_take]
    rw [ht5, hpl]
    exact Nat.min_eq_left (by omega)
  · rw [hsplit]
    simp only [List.length_take]
    rw [ht4, hql]
    exact Nat.min_eq_left (by omega)
  · rw [hsplit]
    simp only [List.length_drop]
    rw [ht4, hql]
  · -- exact 60/20/20 when 5 divides the sample count
    rintro ⟨k, rfl⟩
    rw [hsplit]
    simp only [List.length_drop, List.length_take]
    rw [ht4, ht5, hql, hpl]
    have e1 : (5 * k + 4) / 5 = k := by omega
    rw [e1]
    have g1 : 5 * k - k - (5 * k - k + 3) / 4 = 3 * k := by omega
    have g2 : (5 * k - k + 3) / 4 ⊓ (5 * k - k) = k := by
      have h24 : (5 * k - k + 3) / 4 = k := by omega
      rw [h24]
      exact Nat.min_eq_left (by omega)
    have g3 : k ⊓ (5 * k) = k := Nat.min_eq_left (by omega)
    rw [g1, g2, g3]
    refine ⟨?_, ?_, ?_⟩ <;> push_cast <;> ring
  · -- pairwise disjointness on duplicate-free samples
    intro hnd
    have hpnd : p.Nodup := hp.nodup_iff.mpr hnd
    have htmpnd : (p.drop (nTestSize 1 5 p.length)).Nodup :=
      hpnd.sublist (List.drop_sublist _ _)
    have hqnd : q.Nodup := hq.nodup_iff.mpr (by rw [htmp]; exact htmpnd)
    have dq : (q.take (nTestSize 1 4 q.length)).Disjoint
        (q.drop (nTestSize 1 4 q.length)) :=
      List.disjoint_take_drop hqnd le_rfl
    have dp : (p.take (nTestSize 1 5 p.length)).Disjoint
        (p.drop (nTestSize 1 5 p.length)) :=
      List.disjoint_take_drop hpnd le_rfl
    have hq_sub : q ⊆ p.drop (nTestSize 1 5 p.length) := htmp ▸ hq.subset
    rw [hsplit]
    refine ⟨fun a ha hb => dq hb ha, ?_, ?_⟩
    · intro a ha hb
      exact dp hb (hq_sub (List.drop_subset _ _ ha))
    · intro a ha hb
      exact dp hb (hq_sub (List.take_subset _ _ ha))

/-- Witness for C3 on 10 loaded samples with identity shuffles: the
partition holds, and the sizes are exactly 6 / 2 / 2 = 60/20/20. -/
theorem c3_split_partition_witness :
    (((splitDataset (List.range 10)
        ((train_test_split 1 5 (List.range 10)).1)).1 ++
      (splitDataset (List.range 10)
        ((train_test_split 1 5 (List.range 10)).1)).2.1 ++
      (splitDataset (List.range 10)
        ((train_test_split 1 5 (List.range 10)).1)).2.2).Perm
        (List.range 10)) ∧
      (((splitDataset (List.range 10)
          ((train_test_split 1 5 (List.range 10)).1)).1.length : ℚ) =
          (3 / 5) * 10 ∧
        ((splitDataset (List.range 10)
          ((train_test_split 1 5 (List.range 10)).1)).2.1.length : ℚ) =
          (1 / 5) * 10 ∧
        ((splitDataset (List.range 10)
          ((train_test_split 1 5 (List.range 10)).1)).2.2.length : ℚ) =
          (1 / 5) * 10) ∧
      ((splitDataset (List.range 10)
          ((train_test_split 1 5 (List.range 10)).1)).1.Disjoint
        (splitDataset (List.range 10)
          ((train_test_split 1 5 (List.range 10)).1)).2.1) := by
  have h := c3_split_partition 10 (List.range 10) (List.range 10)
    ((train_test_split 1 5 (List.range 10)).1) rfl (List.Perm.refl _)
    (List.Perm.refl _)
  exact ⟨h.1, h.2.2.1 (by decide), (h.2.2.2 (by decide)).1⟩

/-! ## Standardization lemmas -/

lemma sum_map_sub_const (L : List ℚ) (c : ℚ) :
    (L.map fun a => a - c).sum = L.sum - L.length * c := by
  induction L with
  | nil => simp
  | cons x t ih =>
    simp only [List.map_cons, List.sum_cons, List.length_cons, ih]
    push_cast
    ring

lemma sum_map_div (L : List ℚ) (c : ℚ) :
    (L.map fun a => a / c).sum = L.sum / c := by
  induction L with
  | nil => simp
  | cons x t ih => simp [ih, add_div]

lemma sum_centered (L : List ℚ) :
    (L.map fun a => a - L.sum / L.length).sum = 0 := by
  rw [sum_map_sub_const]
  by_cases hL : L.length = 0
  · rw [List.eq_nil_of_length_eq_zero hL]
    simp
  · have hc : (L.length : ℚ) ≠ 0 := Nat.cast_ne_zero.mpr hL
    rw [mul_comm, div_mul_cancel₀ _ hc, sub_self]

lemma colMean_scaler (X : List (Fin 9 → ℚ)) (s : Fin 9 → ℚ) (j : Fin 9) :
    colMean (X.map (scalerTransform (colMean X) s)) j = 0 := by
  rw [colMean, List.map_map]
  have h1 : ((fun v : Fin 9 → ℚ => v j) ∘ scalerTransform (colMean X) s) =
      (fun a => a / s j) ∘ ((fun a => a - colMean X j) ∘ fun x : Fin 9 → ℚ => x j) :=
    rfl
  rw [h1, ← Function.comp_assoc, ← List.map_map, ← List.map_map, sum_map_div]
  have h2 : colMean X j =
      (X.map fun x : Fin 9 → ℚ => x j).sum /
        (X.map fun x : Fin 9 → ℚ => x j).length := by
    rw [colMean, List.length_map]
  rw [h2, sum_centered]
  simp

lemma colVar_scaler (X : List (Fin 9 → ℚ)) (s : Fin 9 → ℚ) (j : Fin 9)
    (hs : s j ≠ 0) (hvar : (s j) ^ 2 = colVar X j) :
    colVar (X.map (scalerTransform (colMean X) s)) j = 1 := by
  rw [colVar, colMean_scaler]
  simp only [sub_zero, List.map_map, List.length_map]
  have h1 : ((fun v : Fin 9 → ℚ => v j ^ 2) ∘ scalerTransform (colMean X) s) =
      (fun a => a / (s j) ^ 2) ∘
        ((fun a => (a - colMean X j) ^ 2) ∘ fun x : Fin 9 → ℚ => x j) := by
    funext x
    simp only [Function.comp_apply, scalerTransform]
    rw [div_pow]
  rw [h1, ← Function.comp_assoc, ← List.map_map, ← List.map_map, sum_map_div]
  rw [div_right_comm]
  have h2 : (((X.map fun x : Fin 9 → ℚ => x j).map
      fun a => (a - colMean X j) ^ 2).sum / (X.length : ℚ)) = colVar X j := by
    rw [colVar, List.map_map]
    rfl
  rw [h2, ← hvar, div_self (pow_ne_zero 2 hs)]

/-! ## C4 — standardization happens once, over the full set, before the split -/

/-- C4: `make_dataset` standardizes with statistics of the entire
loaded-and-null-filtered table, and only afterwards is the result
split: every sample of each of the three subsets is the
full-table-statistics transform of some kept row, the full standardized
table has column mean 0, and it has column variance 1 whenever `s j` is
the scaler's scale for column `j` (the square root of the column's
population variance). -/
theorem c4_standardize_before_split (rows : List Row) (s : Fin 9 → ℚ)
    (j : Fin 9) (p q : List (Fin 9 → ℚ))
    (hp : p.Perm (make_dataset s rows).1)
    (hq : q.Perm (train_test_split 1 5 p).1) :
    (∀ v, (v ∈ (splitDataset p q).1 ∨ v ∈ (splitDataset p q).2.1 ∨
        v ∈ (splitDataset p q).2.2) →
      ∃ x ∈ (keptRows rows).map featVal,
        v = scalerTransform (colMean ((keptRows rows).map featVal)) s x) ∧
      colMean (make_dataset s rows).1 j = 0 ∧
      (s j ≠ 0 → (s j) ^ 2 = colVar ((keptRows rows).map featVal) j →
        colVar (make_dataset s rows).1 j = 1) := by
  refine ⟨?_, ?_, ?_⟩
  · intro v hv
    have hvp : v ∈ p := by
      have hq_sub : q ⊆ p := fun a ha =>
        List.drop_subset _ _ (hq.subset ha)
      rcases hv with h | h | h
      · exact hq_sub (List.drop_subset _ _ h)
      · exact hq_sub (List.take_subset _ _ h)
      · exact List.take_subset _ _ h
    have hvX : v ∈ (make_dataset s rows).1 := hp.subset hvp
    rw [make_dataset_fst] at hvX
    obtain ⟨x, hx, hxv⟩ := List.mem_map.mp hvX
    exact ⟨x, hx, hxv.symm⟩
  · rw [make_dataset_fst]
    exact colMean_scaler _ s j
  · intro hs hvar
    rw [make_dataset_fst]
    exact colVar_scaler _ s j hs hvar

/-- Witness for C4 on a concrete two-row table whose single-column
statistics are mean 0, variance 1, with identity shuffles. -/
theorem c4_standardize_before_split_witness :
    (∀ v, (v ∈ (splitDataset ((make_dataset (fun _ => 1) c4Rows).1)
          ((train_test_split 1 5 ((make_dataset (fun _ => 1) c4Rows).1)).1)).1 ∨
        v ∈ (splitDataset ((make_dataset (fun _ => 1) c4Rows).1)
          ((train_test_split 1 5 ((make_dataset (fun _ => 1) c4Rows).1)).1)).2.1 ∨
        v ∈ (splitDataset ((make_dataset (fun _ => 1) c4Rows).1)
          ((train_test_split 1 5 ((make_dataset (fun _ => 1) c4Rows).1)).1)).2.2) →
      ∃ x ∈ (keptRows c4Rows).map featVal,
        v = scalerTransform (colMean ((keptRows c4Rows).map featVal))
          (fun _ => 1) x) ∧
      colMean (make_dataset (fun _ => 1) c4Rows).1 0 = 0 ∧
      colVar (make_dataset (fun _ => 1) c4Rows).1 0 = 1 := by
  have h := c4_standardize_before_split c4Rows (fun _ => 1) 0
    ((make_dataset (fun _ => 1) c4Rows).1)
    ((train_test_split 1 5 ((make_dataset (fun _ => 1) c4Rows).1)).1)
    (List.Perm.refl _) (List.Perm.refl _)
  refine ⟨h.1, h.2.1, h.2.2 (by norm_num) ?_⟩
  have hk : keptRows c4Rows = c4Rows := rfl
  rw [hk]
  simp [colVar, colMean, c4Rows, rowPlus, rowMinus, featVal]

end MLCourse
